import Mathlib

/-!
Verification development for the `aadhaar-backend` service (`server.py`).

The service is embedded shallowly:
* external vision libraries (`cv2`, `pyzbar`) are abstracted as an oracle
  structure `Vision`; the control flow of `smart_scan` is embedded exactly;
* `zlib.decompress(_, 16 + MAX_WBITS)` (gzip-only decompression) is abstracted
  as a function `Bytes → Option Bytes`;
* Python big-integer / byte conversions (`int(s)`, `int.bit_length`,
  `int.to_bytes(_, 'big')`), text codecs (`utf-8`, `latin-1`), string
  splitting, and the fixed-shape date regexes are embedded as executable
  Lean functions;
* `datetime(year, month, day)` validity (proleptic Gregorian calendar,
  years 1..9999) is embedded as `isValidDate`; `datetime.now()` becomes an
  explicit `today : Date` parameter.

Machine integers do not occur: Python integers are arbitrary precision, so
`Nat`/`Int` model them directly.  Bytes are `Nat`s below 256.
-/

namespace Aadhaar

/-- Raw byte buffers (each entry is one byte, `< 256` for real data). -/
abbrev Bytes := List Nat

/-! ### Big-integer / byte conversions (used by `decode_secure_qr`, lines 100-102) -/

/-- Fuel-driven bit length; `bitLenAux fuel n` equals Python `n.bit_length()`
whenever `n ≤ fuel`.  Fuel keeps the definition structurally recursive so the
kernel can evaluate it. -/
def bitLenAux : Nat → Nat → Nat
  | 0, _ => 0
  | fuel + 1, n => if n = 0 then 0 else bitLenAux fuel (n / 2) + 1

/-- Embedding of Python `n.bit_length()` for `n ≥ 0`. -/
def bitLen (n : Nat) : Nat := bitLenAux n n

/-- Embedding of Python `n.to_bytes(len, byteorder='big')` (for `n < 256^len`):
big-endian base-256 digits, exactly `len` of them. -/
def beBytes : Nat → Nat → Bytes
  | 0, _ => []
  | len + 1, n => beBytes len (n / 256) ++ [n % 256]

/-- Embedding of lines 101-102 of `server.py`:
`byte_len = (big_int.bit_length() + 7) // 8; big_int.to_bytes(byte_len, 'big')`. -/
def toBytesMin (n : Nat) : Bytes := beBytes ((bitLen n + 7) / 8) n

/-- Reading a byte string as a big-endian unsigned integer
(Python `int.from_bytes(l, 'big')`); used to state the round-trip claims. -/
def fromBytesBE (l : Bytes) : Nat := l.foldl (fun a b => 256 * a + b) 0

/-! ### Text codecs -/

/-- Embedding of Python `bytes.decode("latin-1")`: every byte 0..255 maps to
the Unicode code point of the same value.  Total. -/
def latin1Decode (l : Bytes) : List Char := l.map Char.ofNat

/-- UTF-8 encoding of a single character (RFC 3629). -/
def utf8EncodeChar (c : Char) : Bytes :=
  let n := c.toNat
  if n < 128 then [n]
  else if n < 2048 then [192 + n / 64, 128 + n % 64]
  else if n < 65536 then [224 + n / 4096, 128 + n / 64 % 64, 128 + n % 64]
  else [240 + n / 262144, 128 + n / 4096 % 64, 128 + n / 64 % 64, 128 + n % 64]

/-- Embedding of Python `str.encode("utf-8")`. -/
def utf8Encode (s : List Char) : Bytes := s.flatMap utf8EncodeChar

/-- Decode a single UTF-8 scalar value from the head of a byte list
(RFC 3629, strict): rejects stray continuation bytes, overlong forms,
surrogates, and code points above U+10FFFF.  Returns the character and the
remaining bytes, or `none` on malformed input. -/
def utf8DecodeOne : Bytes → Option (Char × Bytes)
  | [] => none
  | b :: rest =>
    if b < 128 then some (Char.ofNat b, rest)
    else if b < 192 then none
    else if b < 224 then
      match rest with
      | b1 :: rest1 =>
        if 128 ≤ b1 && b1 < 192 then
          let cp := (b - 192) * 64 + (b1 - 128)
          if cp < 128 then none else some (Char.ofNat cp, rest1)
        else none
      | [] => none
    else if b < 240 then
      match rest with
      | b1 :: b2 :: rest2 =>
        if (128 ≤ b1 && b1 < 192) && (128 ≤ b2 && b2 < 192) then
          let cp := (b - 224) * 4096 + (b1 - 128) * 64 + (b2 - 128)
          if cp < 2048 then none
          else if 55296 ≤ cp && cp < 57344 then none
          else some (Char.ofNat cp, rest2)
        else none
      | _ => none
    else if b < 245 then
      match rest with
      | b1 :: b2 :: b3 :: rest3 =>
        if ((128 ≤ b1 && b1 < 192) && (128 ≤ b2 && b2 < 192)) &&
            (128 ≤ b3 && b3 < 192) then
          let cp := (b - 240) * 262144 + (b1 - 128) * 4096 +
            (b2 - 128) * 64 + (b3 - 128)
          if cp < 65536 then none
          else if 1114111 < cp then none
          else some (Char.ofNat cp, rest3)
        else none
      | _ => none
    else none

/-- Fuel-driven UTF-8 decoding loop; each step consumes at least one byte,
so fuel equal to the byte count suffices. -/
def utf8DecodeAux : Nat → Bytes → Option (List Char)
  | _, [] => some []
  | 0, _ :: _ => none
  | fuel + 1, b :: rest =>
    match utf8DecodeOne (b :: rest) with
    | some (c, rest1) =>
      match utf8DecodeAux fuel rest1 with
      | some cs => some (c :: cs)
      | none => none
    | none => none

/-- Embedding of Python `bytes.decode("utf-8")` (strict).  Returns `none`
exactly when Python raises `UnicodeDecodeError`. -/
def utf8Decode (l : Bytes) : Option (List Char) := utf8DecodeAux l.length l

/-! ### Decimal integer parsing and printing -/

/-- Python `str.strip()` whitespace characters (the ASCII ones). -/
def isPyWS (c : Char) : Bool :=
  c = ' ' || c = '\t' || c = '\n' || c = '\x0d' || c = '\x0b' || c = '\x0c'

/-- Leading/trailing whitespace removal, as Python `int(s)` performs. -/
def trimWS (l : List Char) : List Char :=
  ((l.dropWhile isPyWS).reverse.dropWhile isPyWS).reverse

/-- Value of a non-empty all-ASCII-digit character list; `none` otherwise. -/
def parseDigits (l : List Char) : Option Nat :=
  if l.isEmpty then none
  else if l.all Char.isDigit then
    some (l.foldl (fun a c => 10 * a + (c.toNat - 48)) 0)
  else none

/-- Embedding of Python `int(s)` on strings: optional surrounding whitespace,
optional single sign, then ASCII decimal digits.  (Underscore digit
separators and non-ASCII decimal digits, which CPython also accepts, are not
modelled; no input relevant to this service contains them.) -/
def pyParseInt (l : List Char) : Option Int :=
  match trimWS l with
  | [] => none
  | c :: rest =>
    if c = '-' then (parseDigits rest).map (fun n => -(n : Int))
    else if c = '+' then (parseDigits rest).map (fun n => (n : Int))
    else (parseDigits (c :: rest)).map (fun n => (n : Int))

/-- The ASCII digit character for `d < 10` (and `'9'` above). -/
def digitChar : Nat → Char
  | 0 => '0' | 1 => '1' | 2 => '2' | 3 => '3' | 4 => '4'
  | 5 => '5' | 6 => '6' | 7 => '7' | 8 => '8' | _ => '9'

/-- Fuel-driven little-endian decimal digits of `n`; correct when `n ≤ fuel`. -/
def natDigitsRevAux : Nat → Nat → List Nat
  | 0, _ => []
  | fuel + 1, n => if n = 0 then [] else n % 10 :: natDigitsRevAux fuel (n / 10)

/-- Little-endian decimal digits of `n` (empty for 0). -/
def natDigitsRev (n : Nat) : List Nat := natDigitsRevAux n n

/-- The decimal string of `n` (Python `str(n)` for `n ≥ 0`). -/
def natToDecChars (n : Nat) : List Char :=
  if n = 0 then ['0'] else (natDigitsRev n).reverse.map digitChar

/-! ### `decode_secure_qr` (lines 97-106) -/

/-- Embedding of `decode_secure_qr`.  `decompress` models
`zlib.decompress(_, 16 + zlib.MAX_WBITS)` (gzip-header-only decompression):
`none` where Python raises.  The bare `except:` falls back to decoding the
original payload bytes as UTF-8; a negative parsed integer also reaches the
fallback because `int.to_bytes` raises `OverflowError` on negatives.
Returns `none` exactly when the fallback `data_bytes.decode("utf-8")` itself
raises (the exception then escapes to the caller's per-payload handler). -/
def decode_secure_qr (decompress : Bytes → Option Bytes) (data : Bytes) :
    Option (List Char) :=
  match utf8Decode data with
  | none => none
  | some s =>
    match pyParseInt s with
    | none => some s
    | some i =>
      if i < 0 then some s
      else
        match decompress (toBytesMin i.toNat) with
        | some out => some (latin1Decode out)
        | none => some s

/-! ### Dates and `calculate_exact_age` (lines 74-95) -/

/-- A calendar date as year/month/day integers (Python `datetime` fields;
`today` is always a valid date, birth dates are validated). -/
structure Date where
  year : Int
  month : Int
  day : Int

/-- Python `str.split(sep)` for a one-character separator, on char lists:
`"".split(sep) = [""]`, empty pieces are kept. -/
def splitOnChar (sep : Char) : List Char → List (List Char)
  | [] => [[]]
  | c :: rest =>
    if c = sep then [] :: splitOnChar sep rest
    else
      match splitOnChar sep rest with
      | p :: ps => (c :: p) :: ps
      | [] => [[c]]

/-- Embedding of lines 77-84 of `calculate_exact_age`: split on `'-'`
(year-first when the first piece has 4 characters, else day-first), or on
`'/'` (always day-first); any other shape — wrong piece count (tuple
unpacking `ValueError`), unparsable piece, or neither separator present
(`NameError` at `datetime(year, ...)`) — fails.  Result is
`(year, month, day)`. -/
def dobParse (s : List Char) : Option (Int × Int × Int) :=
  if s.contains '-' then
    match splitOnChar '-' s with
    | [p0, p1, p2] =>
      if p0.length = 4 then
        match pyParseInt p0, pyParseInt p1, pyParseInt p2 with
        | some y, some m, some d => some (y, m, d)
        | _, _, _ => none
      else
        match pyParseInt p0, pyParseInt p1, pyParseInt p2 with
        | some d, some m, some y => some (y, m, d)
        | _, _, _ => none
    | _ => none
  else if s.contains '/' then
    match splitOnChar '/' s with
    | [p0, p1, p2] =>
      match pyParseInt p0, pyParseInt p1, pyParseInt p2 with
      | some d, some m, some y => some (y, m, d)
      | _, _, _ => none
    | _ => none
  else none

/-- Proleptic Gregorian leap year (Python `calendar`/`datetime` rule). -/
def isLeapYear (y : Int) : Bool :=
  y % 4 = 0 && (y % 100 ≠ 0 || y % 400 = 0)

/-- Days in a month (month assumed in 1..12 where it matters). -/
def daysInMonth (y m : Int) : Int :=
  if m = 2 then (if isLeapYear y then 29 else 28)
  else if m = 4 || m = 6 || m = 9 || m = 11 then 30
  else 31

/-- Python `datetime(year, month, day)` constructor validity:
`1 ≤ year ≤ 9999` (MINYEAR/MAXYEAR), month 1..12, day in range. -/
def isValidDate (y m d : Int) : Bool :=
  decide (1 ≤ y) && decide (y ≤ 9999) && decide (1 ≤ m) && decide (m ≤ 12) &&
    decide (1 ≤ d) && decide (d ≤ daysInMonth y m)

/-- Python lexicographic tuple comparison `(a, b) < (c, d)` on integers
(line 90 of `server.py`). -/
def tupleLt (a b : Int × Int) : Bool :=
  decide (a.1 < b.1) || (decide (a.1 = b.1) && decide (a.2 < b.2))

/-- Embedding of `calculate_exact_age` (lines 74-95), with `datetime.now()`
made explicit as `today`.  Every failure path (`except: return 0`) returns 0:
parse failures, tuple-unpack failures, missing separators, and invalid
calendar dates all land there.  Total by construction. -/
def calculate_exact_age (s : List Char) (today : Date) : Int :=
  match dobParse s with
  | none => 0
  | some (y, m, d) =>
    if isValidDate y m d then
      let age := today.year - y
      if tupleLt (today.month, today.day) (m, d) then age - 1 else age
    else 0

/-! ### Date-pattern search (lines 135-137) -/

/-- A fixed-shape date template: `true` = ASCII digit `[0-9]`, `false` = `'-'`. -/
abbrev Template := List Bool

/-- `DD-MM-YYYY`: two digits, hyphen, two digits, hyphen, four digits. -/
def tmplDDMM : Template :=
  [true, true, false, true, true, false, true, true, true, true]

/-- `YYYY-MM-DD`: four digits, hyphen, two digits, hyphen, two digits. -/
def tmplYYYY : Template :=
  [true, true, true, true, false, true, true, false, true, true]

/-- Does `s` start with an instance of template `t`? -/
def tmplHeadMatch : Template → List Char → Bool
  | [], _ => true
  | _ :: _, [] => false
  | b :: t, c :: s =>
    (if b then c.isDigit else c = '-') && tmplHeadMatch t s

/-- Leftmost occurrence of template `t` in `s`, as `re.search` with a
fixed-shape pattern: scan start positions left to right, return the first
window that matches. -/
def findFirstTmpl (t : Template) : List Char → Option (List Char)
  | [] => if tmplHeadMatch t [] then some [] else none
  | c :: rest =>
    if tmplHeadMatch t (c :: rest) then some ((c :: rest).take t.length)
    else findFirstTmpl t rest

/-- Does template `t` match at start position `i` of `s`? -/
def matchAt (t : Template) (s : List Char) (i : Nat) : Bool :=
  tmplHeadMatch t (s.drop i)

/-- Embedding of lines 135-137: search for `DD-MM-YYYY` first, and only if
that fails search for `YYYY-MM-DD`. -/
def findDate (s : List Char) : Option (List Char) :=
  match findFirstTmpl tmplDDMM s with
  | some m => some m
  | none => findFirstTmpl tmplYYYY s

/-! ### `smart_scan` (lines 39-72) -/

/-- Oracle bundle for the external vision libraries: `imdecode` is
`cv2.imdecode` (`none` = invalid image, Python `None`); `gray` is
`cv2.cvtColor(_, COLOR_BGR2GRAY)`; `qrDecode` is `pyzbar.decode` returning
the `.data` bytes of each located symbol; `sharpen` is the
GaussianBlur + addWeighted unsharp mask of lines 56-57; `binarize` is the
Otsu threshold of line 61 (applied to a grayscale image); `rotate` is
`cv2.rotate(_, ROTATE_90_CLOCKWISE)`. -/
structure Vision (Img : Type) where
  imdecode : Bytes → Option Img
  gray : Img → Img
  qrDecode : Img → List Bytes
  sharpen : Img → Img
  binarize : Img → Img
  rotate : Img → Img

/-- The four scan variants, in source order. -/
inductive Variant
  | original
  | sharpened
  | highContrastBinary
  | rotated90CW
deriving DecidableEq

/-- The symbol payloads a given variant yields (mirrors the per-variant
pipelines of lines 53-68: the binary variant thresholds the grayscale of the
original and decodes it directly; the others grayscale before decoding). -/
def variantScan {Img : Type} (V : Vision Img) (img : Img) : Variant → List Bytes
  | .original => V.qrDecode (V.gray img)
  | .sharpened => V.qrDecode (V.gray (V.sharpen img))
  | .highContrastBinary => V.qrDecode (V.binarize (V.gray img))
  | .rotated90CW => V.qrDecode (V.gray (V.rotate img))

/-- The fixed priority order of lines 53-68. -/
def variantOrder : List Variant :=
  [.original, .sharpened, .highContrastBinary, .rotated90CW]

/-- Embedding of `smart_scan` (lines 39-72), following the source's
if/return chain literally.  `none` models both the invalid-image early
return (line 47) and the all-variants-empty fall-through (line 70). -/
def smart_scan {Img : Type} (V : Vision Img) (buf : Bytes) :
    Option (List Bytes) :=
  match V.imdecode buf with
  | none => none
  | some img =>
    let d1 := V.qrDecode (V.gray img)
    if d1 ≠ [] then some d1
    else
      let d2 := V.qrDecode (V.gray (V.sharpen img))
      if d2 ≠ [] then some d2
      else
        let d3 := V.qrDecode (V.binarize (V.gray img))
        if d3 ≠ [] then some d3
        else
          let d4 := V.qrDecode (V.gray (V.rotate img))
          if d4 ≠ [] then some d4 else none

/-! ### `verify_aadhaar` (lines 109-159) -/

/-- The JSON response shapes the handler can return: `ok b` is
`{"success": true, "is_under_18": b}` and `fail msg` is
`{"success": false, "message": msg}`.  These are the only shapes in the
source; no other field exists. -/
inductive Response
  | ok (is_under_18 : Bool)
  | fail (message : String)
deriving DecidableEq

/-- The per-payload loop of lines 131-152: decode each symbol's bytes
(`none` = the inner `except Exception: continue`), search for a date
pattern, and return on the first payload containing one; `none` after
exhaustion. -/
def payloadLoop (decompress : Bytes → Option Bytes) (today : Date) :
    List Bytes → Option Bool
  | [] => none
  | p :: rest =>
    match decode_secure_qr decompress p with
    | none => payloadLoop decompress today rest
    | some text =>
      match findDate text with
      | none => payloadLoop decompress today rest
      | some dob => some (calculate_exact_age dob today < 18)

/-- Embedding of the `/verify` handler (lines 109-159).  Logging and the
`del` statements are non-semantic and omitted; the outer `except` block is
unreachable in the embedding because every step is total. -/
def verify_aadhaar {Img : Type} (V : Vision Img)
    (decompress : Bytes → Option Bytes) (today : Date) (buf : Bytes) :
    Response :=
  match smart_scan V buf with
  | none => .fail "No QR code detected."
  | some objs =>
    match payloadLoop decompress today objs with
    | some b => .ok b
    | none => .fail "Could not verify age from this QR."

/-! ### Spec-side helper definitions (encode direction, claim parameters) -/

/-- What the spec assumes of real gzip compression/decompression when
`decompress` only accepts a gzip header: decompressing a compressed blob
gives the blob back, compressed output starts with the gzip magic byte
`0x1f = 31` (hence never a leading zero byte), and compression of a byte
string is a byte string. -/
def gzipLike (compress : Bytes → Bytes) (decompress : Bytes → Option Bytes) :
    Prop :=
  (∀ b, decompress (compress b) = some b) ∧
  (∀ b, ∃ t, compress b = 31 :: t) ∧
  (∀ b, (∀ x ∈ b, x < 256) → ∀ x ∈ compress b, x < 256)

/-- The encode direction of the spec's round-trip property: UTF-8 encode the
text, compress, read the compressed bytes as a big-endian integer, take its
decimal string, and use that string's bytes as the QR payload. -/
def secureEncode (compress : Bytes → Bytes) (text : List Char) : Bytes :=
  (natToDecChars (fromBytesBE (compress (utf8Encode text)))).map Char.toNat

/-- A minimal stand-in satisfying `gzipLike`: prepend the gzip magic byte. -/
def stubCompress (b : Bytes) : Bytes := 31 :: b

/-- Inverse of `stubCompress`. -/
def stubDecompress (l : Bytes) : Option Bytes :=
  match l with
  | h :: t => if h = 31 then some t else none
  | [] => none

/-- Numeric value of an all-digit character list (the fold inside
`parseDigits`). -/
def digitsVal (l : List Char) : Nat :=
  l.foldl (fun a c => 10 * a + (c.toNat - 48)) 0

/-- Does `s` parse (per `dobParse`) into a constructible `datetime`? -/
def dobValid (s : List Char) : Bool :=
  match dobParse s with
  | some (y, m, d) => isValidDate y m d
  | none => false

/-- Two-digit zero-padded decimal rendering (for `n ≤ 99`). -/
def fmt2 (n : Nat) : List Char := [digitChar (n / 10), digitChar (n % 10)]

/-- Four-digit zero-padded decimal rendering (for `n ≤ 9999`). -/
def fmt4 (n : Nat) : List Char :=
  [digitChar (n / 1000), digitChar (n / 100 % 10), digitChar (n / 10 % 10),
    digitChar (n % 10)]

/-- The `DD-MM-YYYY` rendering of a calendar date. -/
def formatDDMM (d m y : Nat) : List Char :=
  fmt2 d ++ '-' :: (fmt2 m ++ '-' :: fmt4 y)

/-- A vision oracle that decodes every buffer to a dummy image and locates
the fixed payload list `ps` in every variant (for concrete instantiation). -/
def constVision (ps : List Bytes) : Vision Unit where
  imdecode := fun _ => some ()
  gray := id
  qrDecode := fun _ => ps
  sharpen := id
  binarize := id
  rotate := id

/-- A vision oracle for which every buffer is a malformed image. -/
def noImgVision : Vision Unit where
  imdecode := fun _ => none
  gray := id
  qrDecode := fun _ => []
  sharpen := id
  binarize := id
  rotate := id

/-- ASCII bytes of a string (for concrete payloads). -/
def bytesOf (s : String) : Bytes := s.toList.map Char.toNat

/-! ## Lemmas: bit length -/

theorem bitLenAux_zero (fuel : Nat) : bitLenAux fuel 0 = 0 := by
  cases fuel <;> simp [bitLenAux]

theorem bitLenAux_lt_two_pow : ∀ fuel n, n ≤ fuel → n < 2 ^ bitLenAux fuel n := by
  intro fuel
  induction fuel with
  | zero => intro n h; interval_cases n; simp [bitLenAux]
  | succ f ih =>
    intro n h
    by_cases h0 : n = 0
    · subst h0; simp [bitLenAux]
    · have h2 : n / 2 ≤ f := by omega
      have hrec := ih (n / 2) h2
      simp only [bitLenAux, if_neg h0]
      rw [pow_succ]
      omega

theorem bitLenAux_pos (fuel n : Nat) (hn : 0 < n) (h : n ≤ fuel) :
    0 < bitLenAux fuel n := by
  cases fuel with
  | zero => omega
  | succ f => simp only [bitLenAux, if_neg (by omega : n ≠ 0)]; omega

theorem two_pow_pred_le_bitLenAux : ∀ fuel n, n ≤ fuel → 0 < n →
    2 ^ (bitLenAux fuel n - 1) ≤ n := by
  intro fuel
  induction fuel with
  | zero => intro n h hn; omega
  | succ f ih =>
    intro n h hn
    simp only [bitLenAux, if_neg (by omega : n ≠ 0), Nat.add_sub_cancel]
    by_cases h1 : n / 2 = 0
    · have : n = 1 := by omega
      subst this
      rw [h1, bitLenAux_zero]
      simp
    · have h2 : n / 2 ≤ f := by omega
      have hp := ih (n / 2) h2 (by omega)
      have hb : 0 < bitLenAux f (n / 2) := bitLenAux_pos f (n / 2) (by omega) h2
      have hsplit : bitLenAux f (n / 2) = (bitLenAux f (n / 2) - 1) + 1 := by omega
      rw [hsplit, pow_succ]
      omega

theorem lt_two_pow_bitLen (n : Nat) : n < 2 ^ bitLen n :=
  bitLenAux_lt_two_pow n n le_rfl

theorem two_pow_pred_le_bitLen (n : Nat) (h : 0 < n) : 2 ^ (bitLen n - 1) ≤ n :=
  two_pow_pred_le_bitLenAux n n le_rfl h

theorem bitLen_pos (n : Nat) (h : 0 < n) : 0 < bitLen n :=
  bitLenAux_pos n n h le_rfl

theorem bitLen_zero : bitLen 0 = 0 := rfl

theorem bitLen_le_of_lt_two_pow (n k : Nat) (h : n < 2 ^ k) : bitLen n ≤ k := by
  by_cases hn : n = 0
  · subst hn; simp [bitLen_zero]
  · by_contra hk
    have h1 : k ≤ bitLen n - 1 := by omega
    have h2 : 2 ^ k ≤ 2 ^ (bitLen n - 1) := Nat.pow_le_pow_right (by decide) h1
    have h3 := two_pow_pred_le_bitLen n (by omega)
    omega

theorem lt_bitLen_of_two_pow_le (n k : Nat) (h : 2 ^ k ≤ n) : k < bitLen n := by
  by_contra hk
  have h1 : bitLen n ≤ k := by omega
  have h2 : 2 ^ bitLen n ≤ 2 ^ k := Nat.pow_le_pow_right (by decide) h1
  have h3 := lt_two_pow_bitLen n
  omega

/-! ## Lemmas: big-endian byte strings -/

theorem beBytes_length : ∀ len n, (beBytes len n).length = len := by
  intro len
  induction len with
  | zero => intro n; rfl
  | succ l ih => intro n; simp [beBytes, ih]

theorem fromBytesBE_acc : ∀ (l : Bytes) (a : Nat),
    l.foldl (fun x y => 256 * x + y) a = a * 256 ^ l.length + fromBytesBE l := by
  intro l
  induction l with
  | nil => intro a; simp [fromBytesBE]
  | cons b t ih =>
    intro a
    have hbt : fromBytesBE (b :: t) = b * 256 ^ t.length + fromBytesBE t := by
      show List.foldl _ (256 * 0 + b) t = _
      rw [show 256 * 0 + b = b by omega, ih b]
    simp only [List.foldl_cons, List.length_cons]
    rw [ih (256 * a + b), hbt, pow_succ]
    ring

theorem fromBytesBE_cons (b : Nat) (t : Bytes) :
    fromBytesBE (b :: t) = b * 256 ^ t.length + fromBytesBE t := by
  show List.foldl _ (256 * 0 + b) t = _
  rw [show 256 * 0 + b = b by omega, fromBytesBE_acc t b]

theorem fromBytesBE_snoc (l : Bytes) (b : Nat) :
    fromBytesBE (l ++ [b]) = 256 * fromBytesBE l + b := by
  unfold fromBytesBE
  rw [List.foldl_append]
  simp

theorem fromBytesBE_lt : ∀ l : Bytes, (∀ x ∈ l, x < 256) →
    fromBytesBE l < 256 ^ l.length := by
  intro l
  induction l with
  | nil => intro _; simp [fromBytesBE]
  | cons b t ih =>
    intro h
    have hb : b < 256 := h b (by simp)
    have ht := ih (fun x hx => h x (by simp [hx]))
    rw [fromBytesBE_cons, List.length_cons, pow_succ]
    have h1 : b * 256 ^ t.length + fromBytesBE t < (b + 1) * 256 ^ t.length := by
      have := Nat.one_mul (256 ^ t.length)
      nlinarith
    have h2 : (b + 1) * 256 ^ t.length ≤ 256 * 256 ^ t.length :=
      Nat.mul_le_mul_right _ (by omega)
    calc b * 256 ^ t.length + fromBytesBE t < (b + 1) * 256 ^ t.length := h1
      _ ≤ 256 * 256 ^ t.length := h2
      _ = 256 ^ t.length * 256 := by ring

theorem fromBytesBE_beBytes : ∀ len n, fromBytesBE (beBytes len n) = n % 256 ^ len := by
  intro len
  induction len with
  | zero => intro n; simp [beBytes, fromBytesBE, Nat.mod_one]
  | succ l ih =>
    intro n
    show fromBytesBE (beBytes l (n / 256) ++ [n % 256]) = _
    rw [fromBytesBE_snoc, ih (n / 256)]
    have hP : 0 < 256 ^ l := Nat.pos_pow_of_pos l (by decide)
    have hmod : n / 256 % 256 ^ l < 256 ^ l := Nat.mod_lt _ hP
    have h255 : n % 256 < 256 := Nat.mod_lt _ (by decide)
    have hbound : 256 * (n / 256 % 256 ^ l) + 256 ≤ 256 * 256 ^ l := by
      calc 256 * (n / 256 % 256 ^ l) + 256
          = 256 * (n / 256 % 256 ^ l + 1) := by ring
        _ ≤ 256 * 256 ^ l := Nat.mul_le_mul_left _ (Nat.succ_le_of_lt hmod)
    have key : n % (256 ^ l * 256) = 256 * (n / 256 % 256 ^ l) + n % 256 := by
      conv_lhs => rw [show n = 256 * (n / 256) + n % 256 from by omega]
      rw [show (256 : Nat) ^ l * 256 = 256 * 256 ^ l by ring]
      rw [Nat.add_mod, Nat.mul_mod_mul_left]
      have hr : n % 256 % (256 * 256 ^ l) = n % 256 :=
        Nat.mod_eq_of_lt (by omega)
      rw [hr]
      exact Nat.mod_eq_of_lt (by omega)
    rw [pow_succ, key]

theorem beBytes_succ_head : ∀ len n, ∃ t,
    beBytes (len + 1) n = (n / 256 ^ len % 256) :: t := by
  intro len
  induction len with
  | zero =>
    intro n
    exact ⟨[], by simp [beBytes]⟩
  | succ l ih =>
    intro n
    obtain ⟨t, ht⟩ := ih (n / 256)
    refine ⟨t ++ [n % 256], ?_⟩
    show beBytes (l + 1) (n / 256) ++ [n % 256] = _
    rw [ht]
    rw [Nat.div_div_eq_div_mul, show (256 : Nat) * 256 ^ l = 256 ^ (l + 1) by ring]
    rfl

theorem beBytes_fromBytesBE : ∀ l : Bytes, (∀ x ∈ l, x < 256) →
    beBytes l.length (fromBytesBE l) = l := by
  intro l
  induction l using List.reverseRecOn with
  | nil => intro _; rfl
  | append_singleton xs b ih =>
    intro h
    have hb : b < 256 := h b (by simp)
    rw [fromBytesBE_snoc]
    rw [show (xs ++ [b]).length = xs.length + 1 by simp]
    show beBytes xs.length ((256 * fromBytesBE xs + b) / 256) ++
        [(256 * fromBytesBE xs + b) % 256] = xs ++ [b]
    have hdiv : (256 * fromBytesBE xs + b) / 256 = fromBytesBE xs := by omega
    have hmod : (256 * fromBytesBE xs + b) % 256 = b := by omega
    rw [hdiv, hmod, ih (fun x hx => h x (by simp [hx]))]

/-! ## Lemmas: `toBytesMin` -/

theorem toBytesMin_length (n : Nat) :
    (toBytesMin n).length = (bitLen n + 7) / 8 :=
  beBytes_length _ n

theorem n_lt_256_pow (n : Nat) : n < 256 ^ ((bitLen n + 7) / 8) := by
  have h1 := lt_two_pow_bitLen n
  have h2 : bitLen n ≤ 8 * ((bitLen n + 7) / 8) := by omega
  calc n < 2 ^ bitLen n := h1
    _ ≤ 2 ^ (8 * ((bitLen n + 7) / 8)) := Nat.pow_le_pow_right (by decide) h2
    _ = 256 ^ ((bitLen n + 7) / 8) := by rw [Nat.pow_mul]

theorem fromBytesBE_toBytesMin (n : Nat) : fromBytesBE (toBytesMin n) = n := by
  unfold toBytesMin
  rw [fromBytesBE_beBytes]
  exact Nat.mod_eq_of_lt (n_lt_256_pow n)

theorem toBytesMin_zero : toBytesMin 0 = [] := rfl

theorem toBytesMin_head_pos (n : Nat) (hn : 0 < n) :
    ∃ h t, toBytesMin n = h :: t ∧ h ≠ 0 := by
  have hb : 0 < bitLen n := bitLen_pos n hn
  obtain ⟨L, hL⟩ : ∃ L, (bitLen n + 7) / 8 = L + 1 :=
    ⟨(bitLen n + 7) / 8 - 1, by omega⟩
  have h8 : 8 * L ≤ bitLen n - 1 := by omega
  have hlow : 256 ^ L ≤ n := by
    calc (256 : Nat) ^ L = 2 ^ (8 * L) := by rw [Nat.pow_mul]
      _ ≤ 2 ^ (bitLen n - 1) := Nat.pow_le_pow_right (by decide) h8
      _ ≤ n := two_pow_pred_le_bitLen n hn
  have hhigh : n < 256 ^ (L + 1) := by rw [← hL]; exact n_lt_256_pow n
  have hPpos : 0 < (256 : Nat) ^ L := Nat.pos_pow_of_pos L (by decide)
  have hdivpos : 0 < n / 256 ^ L := Nat.div_pos hlow hPpos
  have hdivlt : n / 256 ^ L < 256 := by
    rw [Nat.div_lt_iff_lt_mul hPpos]
    calc n < 256 ^ (L + 1) := hhigh
      _ = 256 * 256 ^ L := by ring
  obtain ⟨t, ht⟩ := beBytes_succ_head L n
  refine ⟨n / 256 ^ L, t, ?_, by omega⟩
  unfold toBytesMin
  rw [hL, ht, Nat.mod_eq_of_lt hdivlt]

theorem toBytesMin_fromBytesBE (h : Nat) (t : Bytes)
    (hlt : ∀ x ∈ h :: t, x < 256) (hh : h ≠ 0) :
    toBytesMin (fromBytesBE (h :: t)) = h :: t := by
  have hv1 : 256 ^ t.length ≤ fromBytesBE (h :: t) := by
    rw [fromBytesBE_cons]
    have : 1 * 256 ^ t.length ≤ h * 256 ^ t.length :=
      Nat.mul_le_mul_right _ (by omega)
    omega
  have hv2 : fromBytesBE (h :: t) < 256 ^ (t.length + 1) := by
    have := fromBytesBE_lt (h :: t) hlt
    simpa using this
  have hbl_low : 8 * t.length < bitLen (fromBytesBE (h :: t)) := by
    apply lt_bitLen_of_two_pow_le
    calc 2 ^ (8 * t.length) = 256 ^ t.length := by rw [Nat.pow_mul]
      _ ≤ _ := hv1
  have hbl_high : bitLen (fromBytesBE (h :: t)) ≤ 8 * (t.length + 1) := by
    apply bitLen_le_of_lt_two_pow
    calc fromBytesBE (h :: t) < 256 ^ (t.length + 1) := hv2
      _ = 2 ^ (8 * (t.length + 1)) := by rw [Nat.pow_mul]
  have hL : (bitLen (fromBytesBE (h :: t)) + 7) / 8 = t.length + 1 := by omega
  unfold toBytesMin
  rw [hL, show t.length + 1 = (h :: t).length from rfl]
  exact beBytes_fromBytesBE (h :: t) hlt

/-! ## Lemmas: characters and decimal digits -/

theorem digitChar_toNat (d : Nat) (h : d < 10) : (digitChar d).toNat = 48 + d := by
  interval_cases d <;> decide

theorem digitChar_isDigit (d : Nat) : (digitChar d).isDigit = true := by
  match d with
  | 0 | 1 | 2 | 3 | 4 | 5 | 6 | 7 | 8 => decide
  | n + 9 => exact (by decide : ('9').isDigit = true)

theorem digitChar_ne_hyphen (d : Nat) : digitChar d ≠ '-' := by
  match d with
  | 0 | 1 | 2 | 3 | 4 | 5 | 6 | 7 | 8 => decide
  | n + 9 => exact (by decide : ('9') ≠ '-')

theorem digitChar_ne_plus (d : Nat) : digitChar d ≠ '+' := by
  match d with
  | 0 | 1 | 2 | 3 | 4 | 5 | 6 | 7 | 8 => decide
  | n + 9 => exact (by decide : ('9') ≠ '+')

theorem digitChar_not_ws (d : Nat) : isPyWS (digitChar d) = false := by
  match d with
  | 0 | 1 | 2 | 3 | 4 | 5 | 6 | 7 | 8 => decide
  | n + 9 => exact (by decide : isPyWS '9' = false)

theorem isDigit_toNat_bounds (c : Char) (h : c.isDigit = true) :
    48 ≤ c.toNat ∧ c.toNat ≤ 57 := by
  simp only [Char.isDigit, ge_iff_le, Bool.and_eq_true, decide_eq_true_eq] at h
  exact ⟨UInt32.le_toNat_of_le (by decide) h.1, UInt32.toNat_le_of_le (by decide) h.2⟩

theorem isDigit_toNat_lt (c : Char) (h : c.isDigit = true) : c.toNat < 128 := by
  have := isDigit_toNat_bounds c h
  omega

theorem isDigit_ne_hyphen (c : Char) (h : c.isDigit = true) : c ≠ '-' := by
  intro hc; subst hc; exact absurd h (by decide)

theorem isDigit_ne_plus (c : Char) (h : c.isDigit = true) : c ≠ '+' := by
  intro hc; subst hc; exact absurd h (by decide)

theorem isDigit_not_pyWS (c : Char) (h : c.isDigit = true) : isPyWS c = false := by
  cases hb : isPyWS c
  · rfl
  · exfalso
    simp only [isPyWS, Bool.or_eq_true, decide_eq_true_eq] at hb
    rcases hb with ((((rfl | rfl) | rfl) | rfl) | rfl) | rfl <;>
      exact absurd h (by decide)

theorem natDigitsRevAux_foldr : ∀ fuel n, n ≤ fuel →
    (natDigitsRevAux fuel n).foldr (fun d a => 10 * a + d) 0 = n := by
  intro fuel
  induction fuel with
  | zero => intro n h; interval_cases n; rfl
  | succ f ih =>
    intro n h
    by_cases h0 : n = 0
    · subst h0; simp [natDigitsRevAux]
    · simp only [natDigitsRevAux, if_neg h0, List.foldr_cons]
      rw [ih (n / 10) (by omega)]
      omega

theorem natDigitsRevAux_lt_ten : ∀ fuel n d, d ∈ natDigitsRevAux fuel n → d < 10 := by
  intro fuel
  induction fuel with
  | zero => intro n d hd; simp [natDigitsRevAux] at hd
  | succ f ih =>
    intro n d hd
    by_cases h0 : n = 0
    · subst h0; simp [natDigitsRevAux] at hd
    · simp only [natDigitsRevAux, if_neg h0, List.mem_cons] at hd
      rcases hd with rfl | hd
      · omega
      · exact ih _ _ hd

theorem natDigitsRev_lt_ten (n d : Nat) (hd : d ∈ natDigitsRev n) : d < 10 :=
  natDigitsRevAux_lt_ten n n d hd

theorem natDigitsRev_ne_nil (n : Nat) (h : 0 < n) : natDigitsRev n ≠ [] := by
  unfold natDigitsRev
  cases n with
  | zero => omega
  | succ m => simp [natDigitsRevAux]

/-- Every character of `natToDecChars n` is an ASCII digit. -/
theorem natToDecChars_digits (n : Nat) (c : Char) (hc : c ∈ natToDecChars n) :
    c.isDigit = true := by
  unfold natToDecChars at hc
  by_cases h0 : n = 0
  · subst h0; simp at hc; subst hc; decide
  · rw [if_neg h0] at hc
    simp only [List.mem_map, List.mem_reverse] at hc
    obtain ⟨d, hd, rfl⟩ := hc
    exact digitChar_isDigit d

theorem natToDecChars_ne_nil (n : Nat) : natToDecChars n ≠ [] := by
  unfold natToDecChars
  by_cases h0 : n = 0
  · simp [h0]
  · rw [if_neg h0]
    simp only [ne_eq, List.map_eq_nil_iff, List.reverse_eq_nil_iff]
    exact natDigitsRev_ne_nil n (by omega)

/-- Folding the digit values over a digit list whose entries are below 10
agrees whether we read values off `digitChar` or use the digits directly. -/
theorem foldl_digitChar_eq : ∀ (ds : List Nat) (a : Nat), (∀ d ∈ ds, d < 10) →
    ds.foldl (fun x d => 10 * x + ((digitChar d).toNat - 48)) a =
      ds.foldl (fun x d => 10 * x + d) a := by
  intro ds
  induction ds with
  | nil => intro a _; rfl
  | cons d t ih =>
    intro a h
    have hd : d < 10 := h d (by simp)
    simp only [List.foldl_cons, digitChar_toNat d hd, Nat.add_sub_cancel_left]
    exact ih _ (fun x hx => h x (by simp [hx]))

theorem digitsVal_natToDecChars (n : Nat) : digitsVal (natToDecChars n) = n := by
  by_cases h0 : n = 0
  · subst h0; rfl
  · unfold digitsVal natToDecChars
    rw [if_neg h0, List.foldl_map]
    rw [foldl_digitChar_eq _ 0 (fun d hd => natDigitsRev_lt_ten n d (by simpa using hd))]
    rw [List.foldl_reverse]
    exact natDigitsRevAux_foldr n n le_rfl

theorem parseDigits_of_all_digits (l : List Char) (hne : l ≠ [])
    (hd : ∀ c ∈ l, c.isDigit = true) : parseDigits l = some (digitsVal l) := by
  unfold parseDigits
  rw [if_neg (by simpa using hne), if_pos (by rw [List.all_eq_true]; exact hd)]
  rfl

theorem trimWS_of_all_digits (l : List Char) (hd : ∀ c ∈ l, c.isDigit = true) :
    trimWS l = l := by
  have hws : ∀ c ∈ l, isPyWS c = false := fun c hc => isDigit_not_pyWS c (hd c hc)
  have drop1 : l.dropWhile isPyWS = l := by
    cases l with
    | nil => rfl
    | cons c t =>
      rw [List.dropWhile_cons, hws c (by simp)]
      simp
  have drop2 : l.reverse.dropWhile isPyWS = l.reverse := by
    cases hr : l.reverse with
    | nil => rfl
    | cons c t =>
      have hc : c ∈ l := by
        have : c ∈ l.reverse := by rw [hr]; simp
        simpa using this
      rw [List.dropWhile_cons, hws c hc]
      simp
  unfold trimWS
  rw [drop1, drop2, List.reverse_reverse]

theorem pyParseInt_of_all_digits (l : List Char) (hne : l ≠ [])
    (hd : ∀ c ∈ l, c.isDigit = true) :
    pyParseInt l = some ((digitsVal l : Nat) : Int) := by
  unfold pyParseInt
  rw [trimWS_of_all_digits l hd]
  cases l with
  | nil => exact absurd rfl hne
  | cons c t =>
    have hc : c.isDigit = true := hd c (by simp)
    simp only [if_neg (isDigit_ne_hyphen c hc), if_neg (isDigit_ne_plus c hc),
      parseDigits_of_all_digits _ (by simp) hd]
    rfl

theorem pyParseInt_natToDecChars (n : Nat) :
    pyParseInt (natToDecChars n) = some ((n : Nat) : Int) := by
  rw [pyParseInt_of_all_digits _ (natToDecChars_ne_nil n) (natToDecChars_digits n),
    digitsVal_natToDecChars]

/-! ## Lemmas: ASCII round-trips of the codecs -/

theorem utf8EncodeChar_ascii (c : Char) (h : c.toNat < 128) :
    utf8EncodeChar c = [c.toNat] := by
  unfold utf8EncodeChar
  rw [if_pos h]

theorem utf8Encode_ascii (s : List Char) (h : ∀ c ∈ s, c.toNat < 128) :
    utf8Encode s = s.map Char.toNat := by
  induction s with
  | nil => rfl
  | cons c t ih =>
    show (utf8EncodeChar c ++ utf8Encode t) = _
    rw [utf8EncodeChar_ascii c (h c (by simp)), ih (fun x hx => h x (by simp [hx]))]
    rfl

theorem utf8Decode_ascii (s : List Char) (h : ∀ c ∈ s, c.toNat < 128) :
    utf8Decode (s.map Char.toNat) = some s := by
  induction s with
  | nil => rfl
  | cons c t ih =>
    have hc : c.toNat < 128 := h c (by simp)
    show utf8DecodeAux ((c :: t).map Char.toNat).length
      (c.toNat :: t.map Char.toNat) = _
    simp only [List.map_cons, List.length_cons, utf8DecodeAux, utf8DecodeOne,
      if_pos hc]
    have hrec : utf8DecodeAux (t.map Char.toNat).length (t.map Char.toNat) =
        some t := ih (fun x hx => h x (by simp [hx]))
    rw [hrec, Char.ofNat_toNat]

theorem latin1Decode_map_toNat (s : List Char) :
    latin1Decode (s.map Char.toNat) = s := by
  induction s with
  | nil => rfl
  | cons c t ih =>
    show Char.ofNat c.toNat :: latin1Decode (t.map Char.toNat) = c :: t
    rw [Char.ofNat_toNat, ih]

/-! ## Lemmas: date formatting and parsing -/

theorem fmt2_digits (n : Nat) (c : Char) (hc : c ∈ fmt2 n) : c.isDigit = true := by
  simp only [fmt2, List.mem_cons, List.not_mem_nil, or_false] at hc
  rcases hc with rfl | rfl <;> exact digitChar_isDigit _

theorem fmt4_digits (n : Nat) (c : Char) (hc : c ∈ fmt4 n) : c.isDigit = true := by
  simp only [fmt4, List.mem_cons, List.not_mem_nil, or_false] at hc
  rcases hc with rfl | rfl | rfl | rfl <;> exact digitChar_isDigit _

theorem fmt2_no_hyphen (n : Nat) (c : Char) (hc : c ∈ fmt2 n) : c ≠ '-' :=
  isDigit_ne_hyphen c (fmt2_digits n c hc)

theorem fmt4_no_hyphen (n : Nat) (c : Char) (hc : c ∈ fmt4 n) : c ≠ '-' :=
  isDigit_ne_hyphen c (fmt4_digits n c hc)

theorem pyParseInt_fmt2 (n : Nat) (h : n ≤ 99) :
    pyParseInt (fmt2 n) = some ((n : Nat) : Int) := by
  have hv : digitsVal (fmt2 n) = n := by
    unfold digitsVal fmt2
    simp only [List.foldl_cons, List.foldl_nil]
    rw [digitChar_toNat (n / 10) (by omega), digitChar_toNat (n % 10) (by omega)]
    omega
  rw [pyParseInt_of_all_digits _ (by simp [fmt2]) (fmt2_digits n), hv]

theorem pyParseInt_fmt4 (n : Nat) (h : n ≤ 9999) :
    pyParseInt (fmt4 n) = some ((n : Nat) : Int) := by
  have hv : digitsVal (fmt4 n) = n := by
    unfold digitsVal fmt4
    simp only [List.foldl_cons, List.foldl_nil]
    rw [digitChar_toNat (n / 1000) (by omega), digitChar_toNat (n / 100 % 10) (by omega),
      digitChar_toNat (n / 10 % 10) (by omega), digitChar_toNat (n % 10) (by omega)]
    omega
  rw [pyParseInt_of_all_digits _ (by simp [fmt4]) (fmt4_digits n), hv]

theorem splitOnChar_cons (sep c : Char) (l : List Char) :
    splitOnChar sep (c :: l) =
      if c = sep then [] :: splitOnChar sep l
      else
        match splitOnChar sep l with
        | p :: ps => (c :: p) :: ps
        | [] => [[c]] := rfl

theorem splitOnChar_no_sep (sep : Char) :
    ∀ a : List Char, (∀ c ∈ a, c ≠ sep) → splitOnChar sep a = [a] := by
  intro a
  induction a with
  | nil => intro _; rfl
  | cons c t ih =>
    intro h
    have hc : c ≠ sep := h c (by simp)
    rw [splitOnChar_cons, if_neg hc, ih (fun x hx => h x (by simp [hx]))]

theorem splitOnChar_append (sep : Char) :
    ∀ (a : List Char) (r : List Char), (∀ c ∈ a, c ≠ sep) →
      splitOnChar sep (a ++ sep :: r) = a :: splitOnChar sep r := by
  intro a
  induction a with
  | nil =>
    intro r _
    rw [List.nil_append, splitOnChar_cons, if_pos rfl]
  | cons c t ih =>
    intro r h
    have hc : c ≠ sep := h c (by simp)
    rw [List.cons_append, splitOnChar_cons, if_neg hc,
      ih r (fun x hx => h x (by simp [hx]))]

theorem formatDDMM_contains (d m y : Nat) :
    (formatDDMM d m y).contains '-' = true := by
  have : '-' ∈ formatDDMM d m y := by simp [formatDDMM]
  simpa [List.contains] using this

theorem splitOnChar_formatDDMM (d m y : Nat) :
    splitOnChar '-' (formatDDMM d m y) = [fmt2 d, fmt2 m, fmt4 y] := by
  unfold formatDDMM
  rw [splitOnChar_append '-' (fmt2 d) _ (fmt2_no_hyphen d)]
  rw [splitOnChar_append '-' (fmt2 m) _ (fmt2_no_hyphen m)]
  rw [splitOnChar_no_sep '-' (fmt4 y) (fmt4_no_hyphen y)]

theorem dobParse_formatDDMM (d m y : Nat) (hd : d ≤ 99) (hm : m ≤ 99)
    (hy : y ≤ 9999) :
    dobParse (formatDDMM d m y) =
      some (((y : Nat) : Int), ((m : Nat) : Int), ((d : Nat) : Int)) := by
  unfold dobParse
  rw [if_pos (formatDDMM_contains d m y), splitOnChar_formatDDMM d m y]
  have hlen : (fmt2 d).length = 2 := rfl
  simp only [hlen, if_neg (by omega : ¬ (2 : Nat) = 4)]
  rw [pyParseInt_fmt2 d hd, pyParseInt_fmt2 m hm, pyParseInt_fmt4 y hy]

theorem daysInMonth_le_31 (y m : Int) : daysInMonth y m ≤ 31 := by
  unfold daysInMonth
  split_ifs <;> omega

theorem calculate_exact_age_formatDDMM (y m d : Nat) (today : Date)
    (hv : isValidDate ((y : Nat) : Int) ((m : Nat) : Int) ((d : Nat) : Int) = true) :
    calculate_exact_age (formatDDMM d m y) today =
      (today.year - (y : Int)) -
        (if tupleLt (today.month, today.day) ((m : Int), (d : Int)) then 1
          else 0) := by
  have hb : ((y : Nat) : Int) ≤ 9999 ∧ ((m : Nat) : Int) ≤ 12 ∧
      ((d : Nat) : Int) ≤ daysInMonth ((y : Nat) : Int) ((m : Nat) : Int) := by
    simp only [isValidDate, Bool.and_eq_true, decide_eq_true_eq] at hv
    exact ⟨hv.1.1.1.1.2, hv.1.1.2, hv.2⟩
  have hdm := daysInMonth_le_31 ((y : Nat) : Int) ((m : Nat) : Int)
  have hy : y ≤ 9999 := by exact_mod_cast hb.1
  have hm : m ≤ 99 := by
    have : ((m : Nat) : Int) ≤ 12 := hb.2.1
    omega
  have hd : d ≤ 99 := by
    have : ((d : Nat) : Int) ≤ 31 := le_trans hb.2.2 hdm
    omega
  unfold calculate_exact_age
  rw [dobParse_formatDDMM d m y hd hm hy]
  simp only [if_pos hv]
  split_ifs <;> omega

/-! ## Lemmas: leftmost template matching -/

theorem matchAt_zero (t : Template) (s : List Char) :
    matchAt t s 0 = tmplHeadMatch t s := rfl

theorem matchAt_succ (t : Template) (c : Char) (s : List Char) (i : Nat) :
    matchAt t (c :: s) (i + 1) = matchAt t s i := rfl

theorem matchAt_nil (t : Template) (i : Nat) :
    matchAt t [] i = tmplHeadMatch t [] := by
  unfold matchAt
  rw [List.drop_nil]

theorem findFirstTmpl_some_leftmost :
    ∀ (t : Template) (s m : List Char), findFirstTmpl t s = some m →
      ∃ i, matchAt t s i = true ∧ (∀ j, j < i → matchAt t s j = false) ∧
        m = (s.drop i).take t.length := by
  intro t s
  induction s with
  | nil =>
    intro m hm
    unfold findFirstTmpl at hm
    by_cases h : tmplHeadMatch t [] = true
    · rw [if_pos h] at hm
      injection hm with hm
      exact ⟨0, h, fun j hj => absurd hj (by omega), by rw [← hm]; simp⟩
    · rw [if_neg h] at hm
      exact absurd hm (by simp)
  | cons c rest ih =>
    intro m hm
    unfold findFirstTmpl at hm
    by_cases h : tmplHeadMatch t (c :: rest) = true
    · rw [if_pos h] at hm
      injection hm with hm
      exact ⟨0, h, fun j hj => absurd hj (by omega), hm.symm⟩
    · rw [if_neg h] at hm
      obtain ⟨i, h1, h2, h3⟩ := ih m hm
      refine ⟨i + 1, by rw [matchAt_succ]; exact h1, ?_, h3⟩
      intro j hj
      cases j with
      | zero =>
        rw [matchAt_zero]
        exact Bool.eq_false_iff.mpr h
      | succ j' =>
        rw [matchAt_succ]
        exact h2 j' (by omega)

theorem findFirstTmpl_none :
    ∀ (t : Template) (s : List Char), findFirstTmpl t s = none →
      ∀ i, matchAt t s i = false := by
  intro t s
  induction s with
  | nil =>
    intro h i
    unfold findFirstTmpl at h
    rw [matchAt_nil]
    by_cases hh : tmplHeadMatch t [] = true
    · rw [if_pos hh] at h; exact absurd h (by simp)
    · exact Bool.eq_false_iff.mpr hh
  | cons c rest ih =>
    intro h i
    unfold findFirstTmpl at h
    by_cases hh : tmplHeadMatch t (c :: rest) = true
    · rw [if_pos hh] at h; exact absurd h (by simp)
    · rw [if_neg hh] at h
      cases i with
      | zero => rw [matchAt_zero]; exact Bool.eq_false_iff.mpr hh
      | succ i' => rw [matchAt_succ]; exact ih h i'

/-! ## Lemmas: the scan orchestration and the gzip stand-in -/

theorem smart_scan_eq_find {Img : Type} (V : Vision Img) (buf : Bytes)
    (img : Img) (h : V.imdecode buf = some img) :
    smart_scan V buf =
      (variantOrder.map (variantScan V img)).find? (fun d => !d.isEmpty) := by
  unfold smart_scan
  rw [h]
  simp only [variantOrder, variantScan, List.map_cons, List.map_nil]
  by_cases h1 : V.qrDecode (V.gray img) = [] <;>
    by_cases h2 : V.qrDecode (V.gray (V.sharpen img)) = [] <;>
      by_cases h3 : V.qrDecode (V.binarize (V.gray img)) = [] <;>
        by_cases h4 : V.qrDecode (V.gray (V.rotate img)) = [] <;>
          simp [h1, h2, h3, h4, List.find?,
            List.isEmpty_eq_false.mpr, List.isEmpty_eq_true.mpr]

theorem stub_gzipLike : gzipLike stubCompress stubDecompress := by
  refine ⟨fun b => ?_, fun b => ⟨b, rfl⟩, fun b h x hx => ?_⟩
  · simp [stubDecompress, stubCompress]
  · simp only [stubCompress, List.mem_cons] at hx
    rcases hx with rfl | hx'
    · omega
    · exact h x hx'

/-- Totality and zero-default of `calculate_exact_age` on unparsable input. -/
theorem calculate_exact_age_invalid (s : List Char) (today : Date)
    (hv : dobValid s = false) : calculate_exact_age s today = 0 := by
  unfold calculate_exact_age
  unfold dobValid at hv
  rcases hp : dobParse s with _ | ⟨y, m, d⟩
  · rfl
  · rw [hp] at hv
    have hv2 : isValidDate y m d = false := hv
    simp [hv2]

/-! ## Claim theorems -/

/-- C1: for every byte buffer that does not decode as a valid raster image
(`cv2.imdecode` yields `None`), the `/verify` pipeline returns the
structured failure `{"success": false, "message": "No QR code detected."}`.
The embedding of the handler is a total function, so no exception or fault
escapes it for any input. -/
theorem C1_invalid_image_fail {Img : Type} (V : Vision Img)
    (decompress : Bytes → Option Bytes) (today : Date) (buf : Bytes)
    (h : V.imdecode buf = none) :
    verify_aadhaar V decompress today buf = .fail "No QR code detected." := by
  unfold verify_aadhaar smart_scan
  rw [h]

/-- C1 witness: the theorem applied to a concrete malformed buffer. -/
theorem C1_invalid_image_fail_witness :
    verify_aadhaar noImgVision (fun _ => none) ⟨2025, 1, 1⟩ [0, 1, 2] =
      .fail "No QR code detected." :=
  C1_invalid_image_fail noImgVision (fun _ => none) ⟨2025, 1, 1⟩ [0, 1, 2] rfl

/-- C2: the claim is FALSE of the code (code bug): when a regex-matched date
fails numeric validation (`99-99-2010`), `calculate_exact_age` swallows the
`datetime` error and returns 0, so the handler answers
`{"success": true, "is_under_18": true}` from the offending payload instead
of proceeding to the next payload; with only a valid `01-01-2000` payload
the answer would be `.ok false`, showing the second payload was never
consulted and the "DOB unreadable" report is not reached. -/
theorem C2_invalid_date_divergence :
    verify_aadhaar
        (constVision [bytesOf "ID 99-99-2010 x", bytesOf "ID 01-01-2000"])
        (fun _ => none) ⟨2025, 1, 1⟩ [] = .ok true ∧
      verify_aadhaar (constVision [bytesOf "ID 01-01-2000"]) (fun _ => none)
        ⟨2025, 1, 1⟩ [] = .ok false ∧
      calculate_exact_age "99-99-2010".toList ⟨2025, 1, 1⟩ = 0 := by
  refine ⟨by decide, by decide, by decide⟩

/-- C3: counterexample.  The round trip fails for the non-ASCII text "é":
the encode side compresses the UTF-8 bytes, but `decode_secure_qr` decodes
the decompressed bytes with latin-1, yielding the transcription "Ã©".  The
stand-in compressor satisfies the gzip interface assumptions (inverse,
gzip magic first byte 31, byte-valued output). -/
theorem C3_non_ascii_counterexample :
    gzipLike stubCompress stubDecompress ∧
      decode_secure_qr stubDecompress (secureEncode stubCompress ['é']) =
        some ['Ã', '©'] ∧
      ['Ã', '©'] ≠ ['é'] :=
  ⟨stub_gzipLike, by decide, by decide⟩

/-- C3 (amended): for every text blob all of whose characters are ASCII
(code point < 128), gzip-compressing its UTF-8 bytes, reading them as a
big-endian integer, rendering the decimal string, and feeding those bytes
to the payload decoder reproduces the text exactly, for any
compression/decompression pair satisfying the gzip interface. -/
theorem C3_ascii_roundtrip (compress : Bytes → Bytes)
    (decompress : Bytes → Option Bytes) (hgz : gzipLike compress decompress)
    (text : List Char) (ha : ∀ c ∈ text, c.toNat < 128) :
    decode_secure_qr decompress (secureEncode compress text) = some text := by
  obtain ⟨hinv, hmagic, hbytes⟩ := hgz
  obtain ⟨tl, htl⟩ := hmagic (utf8Encode text)
  have henc : utf8Encode text = text.map Char.toNat := utf8Encode_ascii text ha
  have hblt : ∀ x ∈ compress (utf8Encode text), x < 256 := by
    apply hbytes
    rw [henc]
    intro x hx
    simp only [List.mem_map] at hx
    obtain ⟨c, hc, rfl⟩ := hx
    have := ha c hc
    omega
  unfold secureEncode decode_secure_qr
  rw [utf8Decode_ascii _ (fun c hc => isDigit_toNat_lt c
    (natToDecChars_digits (fromBytesBE (compress (utf8Encode text))) c hc))]
  simp only [pyParseInt_natToDecChars]
  rw [if_neg (by omega : ¬ ((fromBytesBE (compress (utf8Encode text)) : Int) < 0))]
  rw [show ((fromBytesBE (compress (utf8Encode text)) : Nat) : Int).toNat =
    fromBytesBE (compress (utf8Encode text)) from rfl]
  have hround : toBytesMin (fromBytesBE (compress (utf8Encode text))) =
      compress (utf8Encode text) := by
    rw [htl]
    exact toBytesMin_fromBytesBE 31 tl (by rw [← htl]; exact hblt) (by omega)
  rw [hround, hinv (utf8Encode text)]
  show some (latin1Decode (utf8Encode text)) = some text
  rw [henc, latin1Decode_map_toNat]

/-- C3 witness: the amended round trip evaluated on a concrete ASCII text. -/
theorem C3_ascii_roundtrip_witness :
    decode_secure_qr stubDecompress
        (secureEncode stubCompress "DOB 15-03-2010".toList) =
      some "DOB 15-03-2010".toList :=
  C3_ascii_roundtrip stubCompress stubDecompress stub_gzipLike
    "DOB 15-03-2010".toList (by decide)

/-- C4: counterexample.  The SecureNumeric branch converts the integer 0 to
the EMPTY byte string (`(0).to_bytes(0, 'big') = b''`), not to a single zero
byte as claimed. -/
theorem C4_zero_counterexample : toBytesMin 0 = [] ∧ toBytesMin 0 ≠ [0] := by
  decide

/-- C4 (amended): every parsed non-negative integer is converted to its
minimal big-endian representation: length is exactly
`ceil(bit_length / 8)`, the bytes read back as the integer, a positive
integer has a non-zero leading byte, and 0 converts to the empty byte
string (not a single zero byte). -/
theorem C4_minimal_be_bytes (n : Nat) :
    (toBytesMin n).length = (bitLen n + 7) / 8 ∧
      fromBytesBE (toBytesMin n) = n ∧
      (0 < n → ∃ h t, toBytesMin n = h :: t ∧ h ≠ 0) ∧
      toBytesMin 0 = [] :=
  ⟨toBytesMin_length n, fromBytesBE_toBytesMin n, toBytesMin_head_pos n,
    toBytesMin_zero⟩

/-- C4 witness: the theorem applied at 300 (bit length 9, two bytes). -/
theorem C4_minimal_be_bytes_witness :
    (toBytesMin 300).length = 2 ∧ fromBytesBE (toBytesMin 300) = 300 ∧
      ∃ h t, toBytesMin 300 = h :: t ∧ h ≠ 0 := by
  obtain ⟨h1, h2, h3, _⟩ := C4_minimal_be_bytes 300
  exact ⟨by rw [h1]; decide, h2, h3 (by decide)⟩

/-- C5: a payload whose bytes are the UTF-8 digits of a decimal integer but
whose derived big-endian bytes fail (gzip-only) decompression falls back to
legacy text: the decoder returns the UTF-8 decoding of the original payload
bytes instead of failing. -/
theorem C5_gzip_failure_fallback (decompress : Bytes → Option Bytes)
    (cs : List Char) (hne : cs ≠ []) (hdig : ∀ c ∈ cs, c.isDigit = true)
    (hfail : decompress (toBytesMin (digitsVal cs)) = none) :
    decode_secure_qr decompress (cs.map Char.toNat) = some cs := by
  unfold decode_secure_qr
  rw [utf8Decode_ascii cs (fun c hc => isDigit_toNat_lt c (hdig c hc))]
  simp only [pyParseInt_of_all_digits cs hne hdig]
  rw [if_neg (by omega : ¬ ((digitsVal cs : Nat) : Int) < 0)]
  rw [show (((digitsVal cs : Nat) : Int)).toNat = digitsVal cs from rfl, hfail]

/-- C5 witness: fallback evaluated on the digit payload "123" with a
decompressor that rejects everything. -/
theorem C5_gzip_failure_fallback_witness :
    decode_secure_qr (fun _ => none) ("123".toList.map Char.toNat) =
      some "123".toList :=
  C5_gzip_failure_fallback (fun _ => none) "123".toList (by decide) (by decide)
    rfl

/-- C6: for every valid birth date rendered `DD-MM-YYYY` and every `today`,
the computed age is `today.year - birthYear`, minus one exactly when
`(today.month, today.day)` is lexicographically less than
`(birthMonth, birthDay)`; and the spec's concrete examples hold:
DOB 15-03-2010 gives 13 at 2024-03-14 and 14 at 2024-03-15. -/
theorem C6_age_formula :
    (∀ (y m d : Nat) (today : Date),
        isValidDate ((y : Nat) : Int) ((m : Nat) : Int) ((d : Nat) : Int) =
            true →
        calculate_exact_age (formatDDMM d m y) today =
          (today.year - (y : Int)) -
            (if tupleLt (today.month, today.day) ((m : Int), (d : Int))
              then 1 else 0)) ∧
      calculate_exact_age "15-03-2010".toList ⟨2024, 3, 14⟩ = 13 ∧
      calculate_exact_age "15-03-2010".toList ⟨2024, 3, 15⟩ = 14 :=
  ⟨fun y m d today hv => calculate_exact_age_formatDDMM y m d today hv,
    by decide, by decide⟩

/-- C6 witness: the formula applied to DOB 01-01-2000 at 2024-07-07. -/
theorem C6_age_formula_witness :
    calculate_exact_age (formatDDMM 1 1 2000) ⟨2024, 7, 7⟩ = 24 := by
  have h := C6_age_formula.1 2000 1 1 ⟨2024, 7, 7⟩ (by decide)
  rw [h]
  decide

/-- C7: for every decodable image the scan result is the first non-empty
symbol set over the variants in the fixed order Original, Sharpened,
HighContrastBinary, Rotated90CW (expressed as `find?` over the ordered
variant results), and the scan reports not-found exactly when all four
variants yield no symbols. -/
theorem C7_variant_order {Img : Type} (V : Vision Img) (buf : Bytes)
    (img : Img) (h : V.imdecode buf = some img) :
    smart_scan V buf =
        (variantOrder.map (variantScan V img)).find? (fun d => !d.isEmpty) ∧
      (smart_scan V buf = none ↔
        ∀ v ∈ variantOrder, variantScan V img v = []) := by
  have he := smart_scan_eq_find V buf img h
  refine ⟨he, ?_⟩
  rw [he]
  constructor
  · intro hnone v hv
    have := List.find?_eq_none.mp hnone (variantScan V img v)
      (List.mem_map_of_mem _ hv)
    simpa using this
  · intro hall
    apply List.find?_eq_none.mpr
    intro x hx
    simp only [List.mem_map] at hx
    obtain ⟨v, hv, rfl⟩ := hx
    simp [hall v hv]

/-- C7 witness: the theorem applied to a concrete oracle that locates one
symbol in every variant; the scan returns the Original variant's result. -/
theorem C7_variant_order_witness :
    smart_scan (constVision [[7]]) ([] : Bytes) = some [[7]] := by
  have h := (C7_variant_order (constVision [[7]]) [] () rfl).1
  rw [h]
  decide

/-- C8: the extractor searches for a `DD-MM-YYYY` substring first and uses
its leftmost match, ignoring every later match; only when no such match
exists does it search for `YYYY-MM-DD` (using that leftmost match).  Hence
the `DD-MM-YYYY` match wins whenever both layouts appear. -/
theorem C8_ddmm_priority (s : List Char) :
    (∀ m, findFirstTmpl tmplDDMM s = some m →
        findDate s = some m ∧
          ∃ i, matchAt tmplDDMM s i = true ∧
            (∀ j, j < i → matchAt tmplDDMM s j = false) ∧
            m = (s.drop i).take 10) ∧
      (findFirstTmpl tmplDDMM s = none →
        findDate s = findFirstTmpl tmplYYYY s ∧
          ∀ i, matchAt tmplDDMM s i = false) := by
  constructor
  · intro m hm
    refine ⟨by unfold findDate; rw [hm], ?_⟩
    exact findFirstTmpl_some_leftmost tmplDDMM s m hm
  · intro hm
    exact ⟨by unfold findDate; rw [hm], findFirstTmpl_none tmplDDMM s hm⟩

/-- C8 witness: in a text containing both `2010-03-15` and `15-03-2010`, the
`DD-MM-YYYY` date wins. -/
theorem C8_ddmm_priority_witness :
    findDate "2010-03-15 and 15-03-2010".toList =
      some "15-03-2010".toList :=
  ((C8_ddmm_priority _).1 _ (by decide)).1

/-- C9: for every input, the response is either
`{"success": true, "is_under_18": b}` for some boolean `b`, or
`{"success": false, "message": m}` where `m` is one of two input-independent
string literals.  The response type carries no other field, so no numeric
age, DOB, or decoded payload text can occur in any response. -/
theorem C9_response_shape {Img : Type} (V : Vision Img)
    (decompress : Bytes → Option Bytes) (today : Date) (buf : Bytes) :
    (∃ b, verify_aadhaar V decompress today buf = .ok b) ∨
      verify_aadhaar V decompress today buf = .fail "No QR code detected." ∨
      verify_aadhaar V decompress today buf =
        .fail "Could not verify age from this QR." := by
  unfold verify_aadhaar
  split
  · right; left; rfl
  · split
    · left; exact ⟨_, rfl⟩
    · right; right; rfl

/-- C10: `calculate_exact_age` is total and returns 0 on every string it
cannot parse into a constructible calendar date (including regex matches
with out-of-range fields and strings with neither separator); consequently,
when the first located payload decodes to a text whose first date-pattern
match is an impossible calendar date, `/verify` answers
`{"success": true, "is_under_18": true}`. -/
theorem C10_unparsable_age_zero :
    (∀ (s : List Char) (today : Date), dobValid s = false →
        calculate_exact_age s today = 0) ∧
      (∀ {Img : Type} (V : Vision Img) (decompress : Bytes → Option Bytes)
          (today : Date) (buf : Bytes) (p : Bytes) (rest : List Bytes)
          (text dob : List Char),
        smart_scan V buf = some (p :: rest) →
        decode_secure_qr decompress p = some text →
        findDate text = some dob →
        dobValid dob = false →
        verify_aadhaar V decompress today buf = .ok true) := by
  refine ⟨calculate_exact_age_invalid, ?_⟩
  intro Img V decompress today buf p rest text dob hscan hdec hfind hval
  simp only [verify_aadhaar, hscan, payloadLoop, hdec, hfind,
    calculate_exact_age_invalid dob today hval]
  rfl

/-- C10 witness: both conjuncts evaluated on the impossible date
`99-99-2010`. -/
theorem C10_unparsable_age_zero_witness :
    calculate_exact_age "99-99-2010".toList ⟨2025, 6, 1⟩ = 0 ∧
      verify_aadhaar (constVision [bytesOf "no 99-99-2010 yes"])
        (fun _ => none) ⟨2025, 6, 1⟩ [] = .ok true := by
  constructor
  · exact C10_unparsable_age_zero.1 _ _ (by decide)
  · exact C10_unparsable_age_zero.2 (constVision [bytesOf "no 99-99-2010 yes"])
      (fun _ => none) ⟨2025, 6, 1⟩ [] (bytesOf "no 99-99-2010 yes") []
      "no 99-99-2010 yes".toList "99-99-2010".toList (by decide) (by decide)
      (by decide) (by decide)

end Aadhaar
